import Mathlib

/-!
Verification of the `angeldm/heap` repository (single source file `int.go`).

The source implements an indexed max-priority queue: `Item` records carrying
`value`, `priority` and a heap-maintained `index`, stored in a Go slice
`IntQueue = []*Item` that implements `heap.Interface` (`Len`, `Less`, `Swap`,
`Push`, `Pop`) and is driven by the Go standard library `container/heap`
functions `heap.Push`, `heap.Pop` and `heap.Remove` (modelled below in the
`GoHeap` namespace, following the standard library's `up`/`down` sift loops).

Modelling conventions:
* Go `int` values become `Int`; list positions are `Nat`, while the stored
  `index` field stays `Int` (it is set to the sentinel `-1` on removal).
* A Go slice is a `List Item` plus its backing capacity `cap`; reslicing
  `a[0 : n+1]` in `IntQueue.Push` succeeds only within `cap`.
* Go runtime panics (index / slice bounds out of range) are modelled as the
  `Except` error `HeapError.outOfRange`; no operation of the source produces
  any other error.
* The pointer mutations of the source (`item.index = -1`, swaps updating the
  two moved items' `index` fields) are modelled by returning the updated
  records.
-/

/-- `Item` from `int.go`: payload `value`, ordering key `priority`, and the
position field `index` maintained by the heap methods. -/
structure Item where
  value : Int
  priority : Int
  index : Int
deriving Repr, DecidableEq, Inhabited

/-- Failure outcomes.  `emptyCollection` and `invalidHandle` are the error
taxonomy named by the specification; the source code itself never constructs
them.  `outOfRange` models the Go runtime panic (index out of range or slice
bounds out of range) that the source's unchecked accesses can raise. -/
inductive HeapError where
  | emptyCollection
  | invalidHandle
  | outOfRange
deriving Repr, DecidableEq

/-- `IntQueue` is the Go slice `[]*Item`: the live elements plus the backing
array capacity (fixed at construction; `IntQueue.Push` never grows it). -/
structure IntQueue where
  items : List Item
  cap : Nat
deriving Repr, DecidableEq

/-- `NewIntQueue(n)` = `make(IntQueue, 0, n)`: length 0, capacity `n`. -/
def NewIntQueue (n : Nat) : IntQueue := { items := [], cap := n }

/-- Element at position `k` (in-range accesses only are ever relevant). -/
def elt (l : List Item) (k : Nat) : Item := l.getD k default

/-- Priority at position `k`. -/
def prio (l : List Item) (k : Nat) : Int := (elt l k).priority

/-- The `Len` method: `len(pq)`. -/
def IntQueue.Len (pq : IntQueue) : Nat := pq.items.length

/-- The `Less` method: `pq[i].priority > pq[j].priority` (max-heap order). -/
def Less (l : List Item) (i j : Nat) : Bool := (elt l i).priority > (elt l j).priority

/-- Overwrite an item's `index` field with position `k`. -/
def setIdx (x : Item) (k : Nat) : Item := { x with index := (k : Int) }

/-- The `Swap` method: `pq[i], pq[j] = pq[j], pq[i]; pq[i].index = i;
pq[j].index = j`. -/
def Swap (l : List Item) (i j : Nat) : List Item :=
  (l.set i (setIdx (elt l j) i)).set j (setIdx (elt l i) j)

/-- The `IntQueue.Push` method: reslice `a = a[0 : n+1]` (a Go panic when the
new length exceeds the backing capacity), set `item.index = n`, store the item
at position `n`. -/
def IntQueue.Push (pq : IntQueue) (x : Item) : Except HeapError IntQueue :=
  if pq.items.length + 1 ≤ pq.cap then
    .ok { pq with items := pq.items ++ [setIdx x pq.items.length] }
  else .error .outOfRange

/-- The `IntQueue.Pop` method: take the last element, set its `index` to the
sentinel `-1`, shorten the slice by one.  On an empty slice the access
`a[n-1]` is a Go panic. -/
def IntQueue.Pop (pq : IntQueue) : Except HeapError (IntQueue × Item) :=
  match pq.items.length with
  | 0 => .error .outOfRange
  | n+1 =>
    .ok ({ pq with items := pq.items.take n }, { elt pq.items n with index := -1 })

namespace GoHeap

/-- The `container/heap` sift-up loop, with an explicit fuel argument standing
for the (finite) iteration count: at cursor `j` compare with the parent
`i = (j-1)/2` and swap while `Less j i`; fuel `j+1` always suffices because
the cursor strictly decreases. -/
def upAux : Nat → List Item → Nat → List Item
  | 0, l, _ => l
  | fuel+1, l, j =>
    if j = 0 then l
    else if Less l j ((j-1)/2) then upAux fuel (Swap l ((j-1)/2) j) ((j-1)/2) else l

/-- `up(h, j)` of `container/heap` (the parent of `j` is `i = (j-1)/2`; the
loop's `i == j` break is exactly the `j = 0` case, since Go's `(0-1)/2` is
`0` by truncated division, matching `Nat` subtraction here). -/
def up (l : List Item) (j : Nat) : List Item := upAux (j+1) l j

/-- The child of `i` selected by `down`'s body when `j1 = 2*i+1 < n`:
`j2 = 2*i+2` if it is in range and `Less(j2, j1)`, else `j1`. -/
def child (l : List Item) (i n : Nat) : Nat :=
  if 2*i+2 < n ∧ Less l (2*i+2) (2*i+1) then 2*i+2 else 2*i+1

/-- The `container/heap` sift-down loop on positions `< n`, with fuel: at
cursor `i` pick the `Less`-smaller (here: higher-priority) child and swap
while it beats the cursor; returns the final cursor (Go's `down` returns
`i > i0`).  Fuel `n` always suffices because the cursor strictly increases
and stays below `n`. -/
def downAux : Nat → List Item → Nat → Nat → List Item × Nat
  | 0, l, i, _ => (l, i)
  | fuel+1, l, i, n =>
    if 2*i+1 < n then
      if Less l (child l i n) i then
        downAux fuel (Swap l i (child l i n)) (child l i n) n
      else (l, i)
    else (l, i)

/-- `down(h, i, n)` of `container/heap`, also yielding the final cursor. -/
def down (l : List Item) (i n : Nat) : List Item × Nat := downAux n l i n

/-- `heap.Push(h, x)`: `h.Push(x); up(h, h.Len()-1)`. -/
def Push (pq : IntQueue) (x : Item) : Except HeapError IntQueue :=
  match pq.Push x with
  | .error e => .error e
  | .ok pq' => .ok { pq' with items := up pq'.items (pq'.items.length - 1) }

/-- `heap.Pop(h)`: `n := h.Len()-1; h.Swap(0, n); down(h, 0, n); return
h.Pop()`.  On an empty queue `h.Swap(0, -1)` is a Go index panic. -/
def Pop (pq : IntQueue) : Except HeapError (IntQueue × Item) :=
  match pq.items.length with
  | 0 => .error .outOfRange
  | n+1 => IntQueue.Pop { pq with items := (down (Swap pq.items 0 n) 0 n).1 }

/-- The body of `heap.Remove` for an in-range non-last position: swap with the
last element, then `if !down(h, i, n) { up(h, i) }`. -/
def downThenUp (l : List Item) (iN m : Nat) : List Item :=
  if iN < (down (Swap l iN m) iN m).2 then (down (Swap l iN m) iN m).1
  else up (down (Swap l iN m) iN m).1 iN

/-- `heap.Remove(h, i)`: `n := h.Len()-1; if n != i { h.Swap(i, n);
if !down(h, i, n) { up(h, i) } }; return h.Pop()`.  Any execution with `i`
outside `[0, h.Len())` hits a Go index panic (in `Swap` or in `h.Pop()`). -/
def Remove (pq : IntQueue) (i : Int) : Except HeapError (IntQueue × Item) :=
  match pq.items.length with
  | 0 => .error .outOfRange
  | m+1 =>
    if i = (m : Int) then IntQueue.Pop pq
    else if 0 ≤ i ∧ i < (m : Int) + 1 then
      IntQueue.Pop { pq with items := downThenUp pq.items i.toNat m }
    else .error .outOfRange

/-- Invariant of the sift-up loop at cursor `j` under bound `n`: every
non-root position other than `j` is dominated by its parent, and (when `j` is
not the root) the children of `j` are dominated by `j`'s parent. -/
def upInvB (l : List Item) (j n : Nat) : Prop :=
  (∀ k, k < n → k ≠ 0 → k ≠ j → prio l k ≤ prio l ((k-1)/2)) ∧
  (j ≠ 0 → ∀ c, c < n → (c-1)/2 = j → prio l c ≤ prio l ((j-1)/2))

/-- Weak sift-down loop invariant, holding on entry to `down` at cursor `i`:
every parent edge holds except possibly those into `i` and out of `i`, and
(when `i` is not the root) the children of `i` are dominated by `i`'s
parent. -/
def D0 (l : List Item) (i n : Nat) : Prop :=
  (∀ k, k < n → k ≠ 0 → k ≠ i → (k-1)/2 ≠ i → prio l k ≤ prio l ((k-1)/2)) ∧
  (i ≠ 0 → ∀ c, c < n → (c-1)/2 = i → prio l c ≤ prio l ((i-1)/2))

/-- Strong sift-down loop invariant, holding after at least one swap: every
parent edge holds except possibly those out of the cursor `i`. -/
def D1 (l : List Item) (i n : Nat) : Prop :=
  (∀ k, k < n → k ≠ 0 → (k-1)/2 ≠ i → prio l k ≤ prio l ((k-1)/2)) ∧
  (i ≠ 0 → ∀ c, c < n → (c-1)/2 = i → prio l c ≤ prio l ((i-1)/2))

end GoHeap

/-- `update(value, priority)` from `int.go`: `item := heap.Pop(pq).(*Item);
item.value = value; item.priority = priority; heap.Push(pq, item)`. -/
def IntQueue.update (pq : IntQueue) (value priority : Int) : Except HeapError IntQueue :=
  match GoHeap.Pop pq with
  | .error e => .error e
  | .ok (pq', item) => GoHeap.Push pq' { item with value := value, priority := priority }

/-- `changePriority(item, priority)` from `int.go`: `heap.Remove(pq,
item.index); item.priority = priority; heap.Push(pq, item)`.  (The record
pushed back carries the caller's `value` and the new `priority`; `Push`
overwrites the `index` field.) -/
def IntQueue.changePriority (pq : IntQueue) (item : Item) (priority : Int) :
    Except HeapError IntQueue :=
  match GoHeap.Remove pq item.index with
  | .error e => .error e
  | .ok (pq', _) => GoHeap.Push pq' { item with priority := priority }

/-- Modelled from the spec: the source defines no `peek` operation.  Spec §4:
"Returns the maximum-priority Item without removing it; O(1); no mutation;
fails with EmptyCollection" on an empty heap.  The maximum-priority item of a
heap-ordered queue is its root, position 0. -/
def peek (pq : IntQueue) : Except HeapError Item :=
  match pq.items with
  | [] => .error .emptyCollection
  | x :: _ => .ok x

/-- The decomposition named by the spec for `updatePriority`: `removeAt(item)`
(which is `heap.Remove` at the item's stored index), then mutate the removed
item's `value`/`priority`, then push the same item back. -/
def removeSetPush (pq : IntQueue) (item : Item) (value priority : Int) :
    Except HeapError IntQueue :=
  match GoHeap.Remove pq item.index with
  | .error e => .error e
  | .ok (pq', r) => GoHeap.Push pq' { r with value := value, priority := priority }

/-- The priorities pushed by `main` in `int.go`. -/
def mainPriorities : List Int := [77, 22, 44, 55, 11, 88, 33, 99, 0, 66]

/-- The values pushed by `main` in `int.go`. -/
def mainValues : List Int := [0, 1, 2, 3, 4, 5, 6, 7, 8, 9]

/-- Push a list of (value, priority) pairs in order, as `main`'s first loop
does (`&Item{value: v, priority: p}` has zero-valued `index = 0`). -/
def pushAll : IntQueue → List (Int × Int) → Except HeapError IntQueue
  | pq, [] => .ok pq
  | pq, (v, p) :: rest =>
    match GoHeap.Push pq { value := v, priority := p, index := 0 } with
    | .error e => .error e
    | .ok pq' => pushAll pq' rest

/-- Pop `k` times, recording `(priority, value)` pairs, as `main`'s second
loop prints them. -/
def popAll : IntQueue → Nat → Except HeapError (List (Int × Int))
  | _, 0 => .ok []
  | pq, k+1 =>
    match GoHeap.Pop pq with
    | .error e => .error e
    | .ok (pq', item) =>
      match popAll pq' k with
      | .error e => .error e
      | .ok rest => .ok ((item.priority, item.value) :: rest)

/-- The whole `main` scenario: ten pushes into `NewIntQueue(10)`, then ten
pops. -/
def mainRun : Except HeapError (List (Int × Int)) :=
  match pushAll (NewIntQueue 10) (List.zip mainValues mainPriorities) with
  | .error e => .error e
  | .ok pq => popAll pq 10

/-- The (priority, value) sequence documented in `main`'s output comment:
`99:seven 88:five 77:zero 66:nine 55:three 44:two 33:six 22:one 11:four
00:eight`. -/
def mainExpected : List (Int × Int) :=
  [(99, 7), (88, 5), (77, 0), (66, 9), (55, 3), (44, 2), (33, 6), (22, 1),
    (11, 4), (0, 8)]

/-! ## Invariants -/

/-- Heap order among the first `n` positions: every non-root position is
dominated by its parent `(k-1)/2`. -/
def heapInvB (l : List Item) (n : Nat) : Prop :=
  ∀ k, k < n → k ≠ 0 → prio l k ≤ prio l ((k-1)/2)

/-- Heap order on the whole backing sequence. -/
def heapInv (l : List Item) : Prop := heapInvB l l.length

/-- Index consistency: the item stored at position `k` has `index = k`. -/
def idxInv (l : List Item) : Prop := ∀ k, k < l.length → (elt l k).index = (k : Int)

/-- The (value, priority) content of the queue, forgetting index bookkeeping. -/
def payload (l : List Item) : List (Int × Int) := l.map fun x => (x.value, x.priority)

/-- Well-formedness of a queue state: the live length fits the capacity, the
index fields agree with positions, and the max-heap order holds. -/
def WF (pq : IntQueue) : Prop :=
  pq.items.length ≤ pq.cap ∧ idxInv pq.items ∧ heapInv pq.items

/-- States reachable from a fresh queue by successful (non-panicking)
executions of the operations `heap.Push`, `heap.Pop`, `changePriority` and
`update`. -/
inductive Reachable : IntQueue → Prop where
  | new (n : Nat) : Reachable (NewIntQueue n)
  | push (pq t : IntQueue) (x : Item) :
      Reachable pq → GoHeap.Push pq x = .ok t → Reachable t
  | pop (pq t : IntQueue) (r : Item) :
      Reachable pq → GoHeap.Pop pq = .ok (t, r) → Reachable t
  | change (pq t : IntQueue) (x : Item) (p : Int) :
      Reachable pq → IntQueue.changePriority pq x p = .ok t → Reachable t
  | upd (pq t : IntQueue) (v p : Int) :
      Reachable pq → IntQueue.update pq v p = .ok t → Reachable t

instance heapInvBDec (l : List Item) (n : Nat) : Decidable (heapInvB l n) := by
  unfold heapInvB
  infer_instance

instance heapInvDec (l : List Item) : Decidable (heapInv l) := by
  unfold heapInv
  infer_instance

instance idxInvDec (l : List Item) : Decidable (idxInv l) := by
  unfold idxInv
  infer_instance

/-! ## Basic access lemmas -/

theorem elt_eq_getElem (l : List Item) (k : Nat) (h : k < l.length) : elt l k = l[k] := by
  simp [elt, List.getD_eq_getElem?_getD, List.getElem?_eq_getElem h]

theorem elt_set_self {l : List Item} {k : Nat} (h : k < l.length) (x : Item) :
    elt (l.set k x) k = x := by
  simp [elt, List.getD_eq_getElem?_getD, List.getElem?_set_self h]

theorem elt_set_ne {l : List Item} {k m : Nat} (h : m ≠ k) (x : Item) :
    elt (l.set m x) k = elt l k := by
  simp [elt, List.getD_eq_getElem?_getD, List.getElem?_set_ne h]

theorem elt_take {l : List Item} {n k : Nat} (h : k < n) : elt (l.take n) k = elt l k := by
  simp [elt, List.getD_eq_getElem?_getD, List.getElem?_take, h]

theorem elt_append_lt {l : List Item} {x : Item} {k : Nat} (h : k < l.length) :
    elt (l ++ [x]) k = elt l k := by
  simp [elt, List.getD_eq_getElem?_getD, List.getElem?_append, h]

theorem elt_append_len (l : List Item) (x : Item) : elt (l ++ [x]) l.length = x := by
  simp [elt, List.getD_eq_getElem?_getD, List.getElem?_concat_length]

theorem length_Swap (l : List Item) (i j : Nat) : (Swap l i j).length = l.length := by
  simp [Swap]

theorem elt_Swap_fst {l : List Item} {i j : Nat} (hi : i < l.length) :
    elt (Swap l i j) i = setIdx (elt l j) i := by
  by_cases h : i = j
  · subst h
    unfold Swap
    rw [elt_set_self (by simpa using hi)]
  · unfold Swap
    rw [elt_set_ne (fun hh => h hh.symm), elt_set_self hi]

theorem elt_Swap_snd {l : List Item} {i j : Nat} (hj : j < l.length) :
    elt (Swap l i j) j = setIdx (elt l i) j := by
  unfold Swap
  rw [elt_set_self (by simpa using hj)]

theorem elt_Swap_ne {l : List Item} {i j k : Nat} (hki : k ≠ i) (hkj : k ≠ j) :
    elt (Swap l i j) k = elt l k := by
  unfold Swap
  rw [elt_set_ne (Ne.symm hkj), elt_set_ne (Ne.symm hki)]

theorem prio_Swap_fst {l : List Item} {i j : Nat} (hi : i < l.length) :
    prio (Swap l i j) i = prio l j := by
  simp [prio, elt_Swap_fst hi, setIdx]

theorem prio_Swap_snd {l : List Item} {i j : Nat} (hj : j < l.length) :
    prio (Swap l i j) j = prio l i := by
  simp [prio, elt_Swap_snd hj, setIdx]

theorem prio_Swap_ne {l : List Item} {i j k : Nat} (hki : k ≠ i) (hkj : k ≠ j) :
    prio (Swap l i j) k = prio l k := by
  simp [prio, elt_Swap_ne hki hkj]

theorem idxInv_Swap {l : List Item} {i j : Nat} (h : idxInv l)
    (hi : i < l.length) (hj : j < l.length) : idxInv (Swap l i j) := by
  intro k hk
  rw [length_Swap] at hk
  by_cases hkj : k = j
  · subst hkj; rw [elt_Swap_snd hk]; simp [setIdx]
  · by_cases hki : k = i
    · subst hki; rw [elt_Swap_fst hk]; simp [setIdx]
    · rw [elt_Swap_ne hki hkj]; exact h k hk

/-! ## Permutation lemmas for swapping two positions -/

theorem getD_cons_set_perm {α : Type} [Inhabited α] :
    ∀ (t : List α) (k : Nat) (x : α), k < t.length →
      (t.getD k default :: t.set k x).Perm (x :: t)
  | y :: t, 0, x, _ => by
      simpa using List.Perm.swap x y t
  | y :: t, k+1, x, h => by
      simp only [List.getD_cons_succ, List.set_cons_succ]
      have ih := getD_cons_set_perm t k x (Nat.lt_of_succ_lt_succ h)
      exact ((List.Perm.swap y (t.getD k default) (t.set k x)).trans
        (List.Perm.cons y ih)).trans (List.Perm.swap x y t)

theorem set_set_getD_perm_lt {α : Type} [Inhabited α] :
    ∀ (l : List α) (i j : Nat), i < j → j < l.length →
      ((l.set i (l.getD j default)).set j (l.getD i default)).Perm l
  | y :: t, 0, k+1, _, hj => by
      simp only [List.getD_cons_succ, List.getD_cons_zero, List.set_cons_zero,
        List.set_cons_succ]
      exact getD_cons_set_perm t k y (Nat.lt_of_succ_lt_succ hj)
  | y :: t, m+1, k+1, hij, hj => by
      simp only [List.getD_cons_succ, List.set_cons_succ]
      exact List.Perm.cons y
        (set_set_getD_perm_lt t m k (Nat.lt_of_succ_lt_succ hij) (Nat.lt_of_succ_lt_succ hj))

theorem set_getD_self {α : Type} [Inhabited α] (l : List α) (i : Nat) (h : i < l.length) :
    l.set i (l.getD i default) = l := by
  apply List.ext_getElem?
  intro k
  by_cases hk : i = k
  · subst hk
    rw [List.getElem?_set_self h, List.getD_eq_getElem?_getD, List.getElem?_eq_getElem h]
    rfl
  · exact List.getElem?_set_ne hk

theorem set_set_getD_perm {α : Type} [Inhabited α] (l : List α) (i j : Nat)
    (hi : i < l.length) (hj : j < l.length) :
    ((l.set i (l.getD j default)).set j (l.getD i default)).Perm l := by
  rcases Nat.lt_trichotomy i j with h | h | h
  · exact set_set_getD_perm_lt l i j h hj
  · subst h
    rw [List.set_set, set_getD_self l i hi]
  · rw [List.set_comm _ _ _ (Nat.ne_of_gt h)]
    exact set_set_getD_perm_lt l j i h hi

theorem payload_length (l : List Item) : (payload l).length = l.length := by
  simp [payload]

theorem payload_getD {l : List Item} {k : Nat} (h : k < l.length) :
    (payload l).getD k default = ((elt l k).value, (elt l k).priority) := by
  have hk : k < (payload l).length := by rwa [payload_length]
  rw [List.getD_eq_getElem?_getD, List.getElem?_eq_getElem hk]
  simp [payload, elt_eq_getElem l k h]

theorem payload_Swap_perm (l : List Item) (i j : Nat) (hi : i < l.length)
    (hj : j < l.length) : (payload (Swap l i j)).Perm (payload l) := by
  have hpi : i < (payload l).length := by rwa [payload_length]
  have hpj : j < (payload l).length := by rwa [payload_length]
  have hset : payload (Swap l i j)
      = ((payload l).set i ((payload l).getD j default)).set j ((payload l).getD i default) := by
    rw [payload_getD hj, payload_getD hi]
    simp only [payload, Swap, List.map_set]
    simp [setIdx]
  rw [hset]
  exact set_set_getD_perm (payload l) i j hpi hpj


/-! ## Comparison and sift-up lemmas -/

namespace GoHeap

theorem Less_iff {l : List Item} {i j : Nat} : Less l i j = true ↔ prio l j < prio l i := by
  simp [Less, prio]

theorem Less_false {l : List Item} {i j : Nat} : Less l i j = false ↔ prio l i ≤ prio l j := by
  simp [Less, prio]

theorem upInvB_zero {l : List Item} {n : Nat} (h : upInvB l 0 n) : heapInvB l n :=
  fun k hk hk0 => h.1 k hk hk0 hk0

theorem upAux_length : ∀ (fuel : Nat) (l : List Item) (j : Nat),
    (upAux fuel l j).length = l.length
  | 0, _, _ => rfl
  | fuel+1, l, j => by
      unfold upAux
      by_cases h0 : j = 0
      · rw [if_pos h0]
      · rw [if_neg h0]
        by_cases hL : Less l j ((j-1)/2)
        · rw [if_pos hL, upAux_length fuel, length_Swap]
        · rw [if_neg hL]

theorem upAux_elt_ge : ∀ (fuel : Nat) (l : List Item) (j k : Nat), j < k →
    elt (upAux fuel l j) k = elt l k
  | 0, _, _, _, _ => rfl
  | fuel+1, l, j, k, hjk => by
      unfold upAux
      by_cases h0 : j = 0
      · rw [if_pos h0]
      · rw [if_neg h0]
        by_cases hL : Less l j ((j-1)/2)
        · rw [if_pos hL, upAux_elt_ge fuel _ _ k (by omega),
            elt_Swap_ne (by omega) (by omega)]
        · rw [if_neg hL]

theorem upAux_idxInv : ∀ (fuel : Nat) (l : List Item) (j : Nat), j < l.length →
    idxInv l → idxInv (upAux fuel l j)
  | 0, _, _, _, h => h
  | fuel+1, l, j, hj, h => by
      unfold upAux
      by_cases h0 : j = 0
      · rw [if_pos h0]; exact h
      · rw [if_neg h0]
        by_cases hL : Less l j ((j-1)/2)
        · rw [if_pos hL]
          exact upAux_idxInv fuel _ _ (by rw [length_Swap]; omega)
            (idxInv_Swap h (by omega) hj)
        · rw [if_neg hL]; exact h

theorem upAux_payload_perm : ∀ (fuel : Nat) (l : List Item) (j : Nat), j < l.length →
    (payload (upAux fuel l j)).Perm (payload l)
  | 0, _, _, _ => List.Perm.refl _
  | fuel+1, l, j, hj => by
      unfold upAux
      by_cases h0 : j = 0
      · rw [if_pos h0]
      · rw [if_neg h0]
        by_cases hL : Less l j ((j-1)/2)
        · rw [if_pos hL]
          exact ((upAux_payload_perm fuel _ _ (by rw [length_Swap]; omega)).trans
            (payload_Swap_perm l ((j-1)/2) j (by omega) hj))
        · rw [if_neg hL]

theorem upAux_heapInvB : ∀ (fuel : Nat) (l : List Item) (j n : Nat),
    j < fuel → j < n → n ≤ l.length → upInvB l j n → heapInvB (upAux fuel l j) n
  | 0, _, j, _, hf, _, _, _ => absurd hf (Nat.not_lt_zero j)
  | fuel+1, l, j, n, hf, hjn, hn, hinv => by
      unfold upAux
      by_cases h0 : j = 0
      · rw [if_pos h0]
        subst h0
        exact upInvB_zero hinv
      · rw [if_neg h0]
        by_cases hL : Less l j ((j-1)/2)
        · rw [if_pos hL]
          have hij : (j-1)/2 < j := by omega
          have hjl : j < l.length := by omega
          have hil : (j-1)/2 < l.length := by omega
          have hlt : prio l ((j-1)/2) < prio l j := Less_iff.mp hL
          apply upAux_heapInvB fuel _ _ n (by omega) (by omega) (by rw [length_Swap]; exact hn)
          constructor
          · intro k hk hk0 hki
            by_cases hkj : k = j
            · rw [hkj, prio_Swap_snd hjl, prio_Swap_fst hil]
              exact le_of_lt hlt
            · by_cases hpkj : (k-1)/2 = j
              · rw [prio_Swap_ne hki hkj, hpkj, prio_Swap_snd hjl]
                exact hinv.2 h0 k hk hpkj
              · by_cases hpki : (k-1)/2 = (j-1)/2
                · rw [prio_Swap_ne hki hkj, hpki, prio_Swap_fst hil]
                  have hke := hinv.1 k hk hk0 hkj
                  rw [hpki] at hke
                  exact le_of_lt (lt_of_le_of_lt hke hlt)
                · rw [prio_Swap_ne hki hkj, prio_Swap_ne hpki hpkj]
                  exact hinv.1 k hk hk0 hkj
          · intro hi0 c hc hpc
            have hpi : ((j-1)/2 - 1)/2 ≠ (j-1)/2 := by omega
            have hpj : ((j-1)/2 - 1)/2 ≠ j := by omega
            rw [prio_Swap_ne hpi hpj]
            by_cases hcj : c = j
            · rw [hcj, prio_Swap_snd hjl]
              exact hinv.1 ((j-1)/2) (by omega) hi0 (by omega)
            · have hc0 : c ≠ 0 := by omega
              have hcs : c ≠ (j-1)/2 := by omega
              rw [prio_Swap_ne hcs hcj]
              have hce := hinv.1 c hc hc0 hcj
              rw [hpc] at hce
              exact le_trans hce (hinv.1 ((j-1)/2) (by omega) hi0 (by omega))
        · rw [if_neg hL]
          intro k hk hk0
          by_cases hkj : k = j
          · subst hkj
            exact Less_false.mp (Bool.not_eq_true _ ▸ hL)
          · exact hinv.1 k hk hk0 hkj

theorem up_length (l : List Item) (j : Nat) : (up l j).length = l.length :=
  upAux_length (j+1) l j

theorem up_elt_ge (l : List Item) {j k : Nat} (h : j < k) : elt (up l j) k = elt l k :=
  upAux_elt_ge (j+1) l j k h

theorem up_idxInv {l : List Item} {j : Nat} (hj : j < l.length) (h : idxInv l) :
    idxInv (up l j) :=
  upAux_idxInv (j+1) l j hj h

theorem up_payload_perm (l : List Item) {j : Nat} (hj : j < l.length) :
    (payload (up l j)).Perm (payload l) :=
  upAux_payload_perm (j+1) l j hj

theorem up_heapInvB {l : List Item} {j n : Nat} (hjn : j < n) (hn : n ≤ l.length)
    (h : upInvB l j n) : heapInvB (up l j) n :=
  upAux_heapInvB (j+1) l j n (Nat.lt_succ_self j) hjn hn h

/-! ## Sift-down lemmas -/

theorem child_parent {l : List Item} {i n : Nat} : (child l i n - 1)/2 = i := by
  unfold child
  split <;> omega

theorem lt_child {l : List Item} {i n : Nat} : i < child l i n := by
  unfold child
  split <;> omega

theorem child_lt {l : List Item} {i n : Nat} (h : 2*i+1 < n) : child l i n < n := by
  unfold child
  by_cases hc : 2*i+2 < n ∧ Less l (2*i+2) (2*i+1) = true
  · rw [if_pos hc]; exact hc.1
  · rw [if_neg hc]; exact h

theorem child_max1 {l : List Item} {i n : Nat} : prio l (2*i+1) ≤ prio l (child l i n) := by
  unfold child
  by_cases hc : 2*i+2 < n ∧ Less l (2*i+2) (2*i+1) = true
  · rw [if_pos hc]; exact le_of_lt (Less_iff.mp hc.2)
  · rw [if_neg hc]

theorem child_max2 {l : List Item} {i n : Nat} (h2 : 2*i+2 < n) :
    prio l (2*i+2) ≤ prio l (child l i n) := by
  unfold child
  by_cases hc : 2*i+2 < n ∧ Less l (2*i+2) (2*i+1) = true
  · rw [if_pos hc]
  · rw [if_neg hc]
    have hb : Less l (2*i+2) (2*i+1) = false :=
      Bool.eq_false_iff.mpr (fun hb => hc ⟨h2, hb⟩)
    exact Less_false.mp hb

theorem D1_D0 {l : List Item} {i n : Nat} (h : D1 l i n) : D0 l i n :=
  ⟨fun k hk h0 _ hp => h.1 k hk h0 hp, h.2⟩

/-- One sift-down swap step preserves the loop invariant (strengthens `D0`
at `i` to `D1` at the selected child). -/
theorem D1_step {l : List Item} {i n : Nat} (hn : n ≤ l.length) (h1 : 2*i+1 < n)
    (hL : Less l (child l i n) i = true) (hD : D0 l i n) :
    D1 (Swap l i (child l i n)) (child l i n) n := by
  have hij : i < child l i n := lt_child
  have hjn : child l i n < n := child_lt h1
  have hjl : child l i n < l.length := by omega
  have hil : i < l.length := by omega
  have hpj : (child l i n - 1)/2 = i := child_parent
  have hlt : prio l i < prio l (child l i n) := Less_iff.mp hL
  constructor
  · intro k hk hk0 hpk
    by_cases hki : k = i
    · have hi0 : i ≠ 0 := by omega
      have hpii : (i-1)/2 ≠ i := by omega
      have hpij : (i-1)/2 ≠ child l i n := by omega
      rw [hki, prio_Swap_fst hil, prio_Swap_ne hpii hpij]
      exact hD.2 hi0 (child l i n) hjn hpj
    · by_cases hkj : k = child l i n
      · rw [hkj, prio_Swap_snd hjl, hpj, prio_Swap_fst hil]
        exact le_of_lt hlt
      · by_cases hpki : (k-1)/2 = i
        · rw [prio_Swap_ne hki hkj, hpki, prio_Swap_fst hil]
          have hk12 : k = 2*i+1 ∨ k = 2*i+2 := by omega
          rcases hk12 with h | h
          · rw [h]; exact child_max1
          · rw [h]; exact child_max2 (by omega)
        · rw [prio_Swap_ne hki hkj, prio_Swap_ne hpki hpk]
          exact hD.1 k hk hk0 hki hpki
  · intro _ c hc hpc
    have hci : c ≠ i := by omega
    have hcj : c ≠ child l i n := by omega
    have hc0 : c ≠ 0 := by omega
    rw [prio_Swap_ne hci hcj, hpj, prio_Swap_fst hil]
    have hce := hD.1 c hc hc0 hci (by omega)
    rw [hpc] at hce
    exact hce

theorem downAux_length : ∀ (fuel : Nat) (l : List Item) (i n : Nat),
    (downAux fuel l i n).1.length = l.length
  | 0, _, _, _ => rfl
  | fuel+1, l, i, n => by
      unfold downAux
      by_cases h1 : 2*i+1 < n
      · rw [if_pos h1]
        by_cases hL : Less l (child l i n) i
        · rw [if_pos hL, downAux_length fuel, length_Swap]
        · rw [if_neg hL]
      · rw [if_neg h1]

theorem downAux_snd_ge : ∀ (fuel : Nat) (l : List Item) (i n : Nat),
    i ≤ (downAux fuel l i n).2
  | 0, _, _, _ => Nat.le_refl _
  | fuel+1, l, i, n => by
      unfold downAux
      by_cases h1 : 2*i+1 < n
      · rw [if_pos h1]
        by_cases hL : Less l (child l i n) i
        · rw [if_pos hL]
          exact le_trans (le_of_lt lt_child) (downAux_snd_ge fuel _ _ _)
        · rw [if_neg hL]
      · rw [if_neg h1]

theorem downAux_elt_ge : ∀ (fuel : Nat) (l : List Item) (i n k : Nat), n ≤ k →
    elt (downAux fuel l i n).1 k = elt l k
  | 0, _, _, _, _, _ => rfl
  | fuel+1, l, i, n, k, hk => by
      unfold downAux
      by_cases h1 : 2*i+1 < n
      · rw [if_pos h1]
        by_cases hL : Less l (child l i n) i
        · have hjn : child l i n < n := child_lt h1
          rw [if_pos hL, downAux_elt_ge fuel _ _ _ k hk,
            elt_Swap_ne (by omega) (by omega)]
        · rw [if_neg hL]
      · rw [if_neg h1]

theorem downAux_idxInv : ∀ (fuel : Nat) (l : List Item) (i n : Nat), n ≤ l.length →
    idxInv l → idxInv (downAux fuel l i n).1
  | 0, _, _, _, _, h => h
  | fuel+1, l, i, n, hn, h => by
      unfold downAux
      by_cases h1 : 2*i+1 < n
      · rw [if_pos h1]
        by_cases hL : Less l (child l i n) i
        · have hjn : child l i n < n := child_lt h1
          rw [if_pos hL]
          exact downAux_idxInv fuel _ _ _ (by rw [length_Swap]; exact hn)
            (idxInv_Swap h (by omega) (by omega))
        · rw [if_neg hL]; exact h
      · rw [if_neg h1]; exact h

theorem downAux_payload_perm : ∀ (fuel : Nat) (l : List Item) (i n : Nat), n ≤ l.length →
    (payload (downAux fuel l i n).1).Perm (payload l)
  | 0, _, _, _, _ => List.Perm.refl _
  | fuel+1, l, i, n, hn => by
      unfold downAux
      by_cases h1 : 2*i+1 < n
      · rw [if_pos h1]
        by_cases hL : Less l (child l i n) i
        · have hjn : child l i n < n := child_lt h1
          rw [if_pos hL]
          exact (downAux_payload_perm fuel _ _ _ (by rw [length_Swap]; exact hn)).trans
            (payload_Swap_perm l i (child l i n) (by omega) (by omega))
        · rw [if_neg hL]
      · rw [if_neg h1]

theorem downAux_D1 : ∀ (fuel : Nat) (l : List Item) (i n : Nat),
    n ≤ fuel + i → n ≤ l.length → D1 l i n → heapInvB (downAux fuel l i n).1 n
  | 0, l, i, n, hfi, _, hD => by
      intro k hk hk0
      exact hD.1 k hk hk0 (by omega)
  | fuel+1, l, i, n, hfi, hn, hD => by
      unfold downAux
      by_cases h1 : 2*i+1 < n
      · rw [if_pos h1]
        by_cases hL : Less l (child l i n) i
        · rw [if_pos hL]
          have hja : i < child l i n := lt_child
          exact downAux_D1 fuel _ _ n (by omega) (by rw [length_Swap]; exact hn)
            (D1_step hn h1 hL (D1_D0 hD))
        · rw [if_neg hL]
          intro k hk hk0
          by_cases hp : (k-1)/2 = i
          · have hci : prio l (child l i n) ≤ prio l i :=
              Less_false.mp (Bool.eq_false_iff.mpr hL)
            have hk12 : k = 2*i+1 ∨ k = 2*i+2 := by omega
            rw [hp]
            rcases hk12 with h | h
            · rw [h]; exact le_trans child_max1 hci
            · rw [h]; exact le_trans (child_max2 (by omega)) hci
          · exact hD.1 k hk hk0 hp
      · rw [if_neg h1]
        intro k hk hk0
        by_cases hp : (k-1)/2 = i
        · exact absurd hk (by omega)
        · exact hD.1 k hk hk0 hp

theorem downAux_start : ∀ (fuel : Nat) (l : List Item) (i n : Nat),
    n ≤ fuel + i → n ≤ l.length → D0 l i n →
    (i < (downAux fuel l i n).2 → heapInvB (downAux fuel l i n).1 n) ∧
    ((downAux fuel l i n).2 = i → (downAux fuel l i n).1 = l ∧ upInvB l i n)
  | 0, l, i, n, hfi, _, hD => by
      constructor
      · intro h; exact absurd h (lt_irrefl i)
      · intro _
        exact ⟨rfl, fun k hk hk0 hki => hD.1 k hk hk0 hki (by omega), hD.2⟩
  | fuel+1, l, i, n, hfi, hn, hD => by
      unfold downAux
      by_cases h1 : 2*i+1 < n
      · rw [if_pos h1]
        by_cases hL : Less l (child l i n) i
        · rw [if_pos hL]
          have hge := downAux_snd_ge fuel (Swap l i (child l i n)) (child l i n) n
          have hja : i < child l i n := lt_child
          constructor
          · intro _
            exact downAux_D1 fuel _ _ n (by omega) (by rw [length_Swap]; exact hn)
              (D1_step hn h1 hL hD)
          · intro hsnd
            exact absurd hsnd (by omega)
        · rw [if_neg hL]
          constructor
          · intro h; exact absurd h (lt_irrefl i)
          · intro _
            refine ⟨rfl, ?_, hD.2⟩
            intro k hk hk0 hki
            by_cases hp : (k-1)/2 = i
            · have hci : prio l (child l i n) ≤ prio l i :=
                Less_false.mp (Bool.eq_false_iff.mpr hL)
              have hk12 : k = 2*i+1 ∨ k = 2*i+2 := by omega
              rw [hp]
              rcases hk12 with h | h
              · rw [h]; exact le_trans child_max1 hci
              · rw [h]; exact le_trans (child_max2 (by omega)) hci
            · exact hD.1 k hk hk0 hki hp
      · rw [if_neg h1]
        constructor
        · intro h; exact absurd h (lt_irrefl i)
        · intro _
          refine ⟨rfl, ?_, hD.2⟩
          intro k hk hk0 hki
          exact hD.1 k hk hk0 hki (by omega)

theorem down_length (l : List Item) (i n : Nat) : (down l i n).1.length = l.length :=
  downAux_length n l i n

theorem down_snd_ge (l : List Item) (i n : Nat) : i ≤ (down l i n).2 :=
  downAux_snd_ge n l i n

theorem down_elt_ge (l : List Item) (i : Nat) {n k : Nat} (h : n ≤ k) :
    elt (down l i n).1 k = elt l k :=
  downAux_elt_ge n l i n k h

theorem down_idxInv {l : List Item} (i : Nat) {n : Nat} (hn : n ≤ l.length)
    (h : idxInv l) : idxInv (down l i n).1 :=
  downAux_idxInv n l i n hn h

theorem down_payload_perm (l : List Item) (i : Nat) {n : Nat} (hn : n ≤ l.length) :
    (payload (down l i n).1).Perm (payload l) :=
  downAux_payload_perm n l i n hn

theorem down_start {l : List Item} {i n : Nat} (hn : n ≤ l.length) (hD : D0 l i n) :
    (i < (down l i n).2 → heapInvB (down l i n).1 n) ∧
    ((down l i n).2 = i → (down l i n).1 = l ∧ upInvB l i n) :=
  downAux_start n l i n (by omega) hn hD

/-- Any position of a heap-ordered prefix is dominated by the root. -/
theorem heapInvB_le_root {l : List Item} {n : Nat} (h : heapInvB l n) :
    ∀ k, k < n → prio l k ≤ prio l 0 := by
  intro k
  induction k using Nat.strong_induction_on with
  | _ k ih =>
    intro hk
    by_cases hk0 : k = 0
    · subst hk0; exact le_refl _
    · exact le_trans (h k hk hk0) (ih ((k-1)/2) (by omega) (by omega))

end GoHeap

/-! ## Helpers for prefixes and appends -/

theorem prio_take {l : List Item} {n k : Nat} (h : k < n) : prio (l.take n) k = prio l k := by
  simp [prio, elt_take h]

theorem prio_append_lt {l : List Item} {x : Item} {k : Nat} (h : k < l.length) :
    prio (l ++ [x]) k = prio l k := by
  simp [prio, elt_append_lt h]

theorem idxInv_take {l : List Item} (n : Nat) (h : idxInv l) : idxInv (l.take n) := by
  intro k hk
  rw [List.length_take] at hk
  rw [elt_take (by omega)]
  exact h k (by omega)

theorem heapInv_take {l : List Item} {n : Nat} (h : heapInvB l n) :
    heapInv (l.take n) := by
  intro k hk hk0
  rw [List.length_take] at hk
  rw [prio_take (by omega), prio_take (by omega)]
  exact h k (by omega) hk0

theorem payload_append (l₁ l₂ : List Item) : payload (l₁ ++ l₂) = payload l₁ ++ payload l₂ := by
  simp [payload]

theorem last_cons_perm (l : List Item) (x : Item) :
    (payload (l ++ [x])).Perm ((x.value, x.priority) :: payload l) := by
  rw [payload_append]
  exact List.perm_append_comm

theorem payload_perm_take_last {l : List Item} {m : Nat} (h : l.length = m + 1) :
    (payload l).Perm (((elt l m).value, (elt l m).priority) :: payload (l.take m)) := by
  have hm : m < l.length := by omega
  have hsplit : l = l.take m ++ [elt l m] := by
    have h1 := List.take_append_drop m l
    have h2 : l.drop m = [elt l m] := by
      rw [elt_eq_getElem l m hm, List.drop_eq_getElem_cons hm,
        List.drop_eq_nil_of_le (by omega)]
    rw [h2] at h1
    exact h1.symm
  have := last_cons_perm (l.take m) (elt l m)
  rw [← hsplit] at this
  exact this

/-! ## Operation-level specifications -/

theorem IntQueue.Pop_eq {pq : IntQueue} {m : Nat} (hm : pq.items.length = m + 1) :
    IntQueue.Pop pq =
      .ok ({ pq with items := pq.items.take m }, { elt pq.items m with index := -1 }) := by
  unfold IntQueue.Pop
  rw [hm]

theorem IntQueue.Pop_len_zero {pq : IntQueue} (h : pq.items.length = 0) :
    IntQueue.Pop pq = .error .outOfRange := by
  unfold IntQueue.Pop
  rw [h]

theorem GoHeap.Push_ok {pq : IntQueue} (x : Item) (hcap : pq.items.length < pq.cap) :
    ∃ t, GoHeap.Push pq x = .ok t ∧ t.cap = pq.cap ∧
      t.items.length = pq.items.length + 1 ∧
      (payload t.items).Perm ((x.value, x.priority) :: payload pq.items) ∧
      (idxInv pq.items → idxInv t.items) ∧
      (heapInv pq.items → heapInv t.items) := by
  have hif : pq.items.length + 1 ≤ pq.cap := hcap
  have hkey : GoHeap.Push pq x =
      .ok ⟨GoHeap.up (pq.items ++ [setIdx x pq.items.length]) pq.items.length, pq.cap⟩ := by
    unfold GoHeap.Push IntQueue.Push
    rw [if_pos hif]
    simp [List.length_append]
  refine ⟨_, hkey, rfl, ?_, ?_, ?_, ?_⟩
  · show (GoHeap.up _ _).length = _
    rw [GoHeap.up_length, List.length_append]
    simp
  · have h1 : (payload (GoHeap.up (pq.items ++ [setIdx x pq.items.length])
        pq.items.length)).Perm (payload (pq.items ++ [setIdx x pq.items.length])) :=
      GoHeap.up_payload_perm _ (by simp)
    have h2 := last_cons_perm pq.items (setIdx x pq.items.length)
    simp only [setIdx] at h2
    exact h1.trans h2
  · intro h
    apply GoHeap.up_idxInv (by simp)
    intro k hk
    rw [List.length_append] at hk
    simp only [List.length_singleton] at hk
    by_cases hkn : k = pq.items.length
    · rw [hkn, elt_append_len]
      simp [setIdx]
    · rw [elt_append_lt (by omega)]
      exact h k (by omega)
  · intro h
    have hup : heapInvB
        (GoHeap.up (pq.items ++ [setIdx x pq.items.length]) pq.items.length)
        (pq.items.length + 1) := by
      apply GoHeap.up_heapInvB (by omega) (by simp)
      constructor
      · intro k hk hk0 hkn
        have hklt : k < pq.items.length := by omega
        rw [prio_append_lt hklt, prio_append_lt (by omega)]
        exact h k hklt hk0
      · intro _ c hc hpc
        exact absurd hc (by omega)
    show heapInvB _ _
    rw [GoHeap.up_length, List.length_append]
    simpa using hup

theorem GoHeap.Push_err {pq : IntQueue} (x : Item) (hcap : pq.cap ≤ pq.items.length) :
    GoHeap.Push pq x = .error .outOfRange := by
  unfold GoHeap.Push IntQueue.Push
  rw [if_neg (by omega)]

theorem GoHeap.Push_ok_cap {pq : IntQueue} {x : Item} {t : IntQueue}
    (h : GoHeap.Push pq x = .ok t) : pq.items.length < pq.cap := by
  by_cases hc : pq.items.length + 1 ≤ pq.cap
  · omega
  · rw [GoHeap.Push_err x (by omega)] at h
    exact Except.noConfusion h

theorem GoHeap.Pop_empty {pq : IntQueue} (h : pq.items = []) :
    GoHeap.Pop pq = .error .outOfRange := by
  unfold GoHeap.Pop
  rw [h]
  rfl

theorem GoHeap.Pop_ok {pq : IntQueue} (hne : pq.items ≠ []) :
    ∃ t r, GoHeap.Pop pq = .ok (t, r) ∧ t.cap = pq.cap ∧
      t.items.length = pq.items.length - 1 ∧
      r = ⟨(elt pq.items 0).value, (elt pq.items 0).priority, -1⟩ ∧
      (payload pq.items).Perm ((r.value, r.priority) :: payload t.items) ∧
      (idxInv pq.items → idxInv t.items) ∧
      (heapInv pq.items → heapInv t.items) := by
  obtain ⟨m, hm⟩ : ∃ m, pq.items.length = m + 1 := by
    cases hl : pq.items.length with
    | zero => exact absurd (List.length_eq_zero.mp hl) hne
    | succ k => exact ⟨k, rfl⟩
  have hml : m < pq.items.length := by omega
  have h0l : 0 < pq.items.length := by omega
  have hd : GoHeap.Pop pq
      = IntQueue.Pop ⟨(GoHeap.down (Swap pq.items 0 m) 0 m).1, pq.cap⟩ := by
    unfold GoHeap.Pop
    rw [hm]
  have hlen2 : (GoHeap.down (Swap pq.items 0 m) 0 m).1.length = m + 1 := by
    rw [GoHeap.down_length, length_Swap, hm]
  have heltm : elt (GoHeap.down (Swap pq.items 0 m) 0 m).1 m = setIdx (elt pq.items 0) m := by
    rw [GoHeap.down_elt_ge _ _ (le_refl m), elt_Swap_snd hml]
  rw [hd, IntQueue.Pop_eq hlen2]
  refine ⟨_, _, rfl, rfl, ?_, ?_, ?_, ?_, ?_⟩
  · simp [List.length_take, hlen2, hm]
  · rw [heltm]
    rfl
  · have hp1 : (payload (GoHeap.down (Swap pq.items 0 m) 0 m).1).Perm (payload pq.items) := by
      exact (GoHeap.down_payload_perm _ 0 (by rw [length_Swap]; omega)).trans
        (payload_Swap_perm pq.items 0 m h0l hml)
    have hp2 := payload_perm_take_last hlen2
    exact hp1.symm.trans hp2
  · intro h
    apply idxInv_take
    exact GoHeap.down_idxInv 0 (by rw [length_Swap]; omega) (idxInv_Swap h h0l hml)
  · intro h
    apply heapInv_take
    have hD : GoHeap.D0 (Swap pq.items 0 m) 0 m := by
      constructor
      · intro k hk hk0 _ hpk
        rw [prio_Swap_ne hk0 (by omega), prio_Swap_ne hpk (by omega)]
        exact h k (by omega) hk0
      · intro h0
        exact absurd rfl h0
    have hs := GoHeap.down_start (by rw [length_Swap]; omega) hD
    rcases Nat.eq_zero_or_pos (GoHeap.down (Swap pq.items 0 m) 0 m).2 with hz | hpos
    · obtain ⟨heq, hup⟩ := hs.2 hz
      rw [heq]
      exact GoHeap.upInvB_zero hup
    · exact hs.1 hpos

theorem GoHeap.Pop_ok_ne {pq t : IntQueue} {r : Item}
    (h : GoHeap.Pop pq = .ok (t, r)) : pq.items ≠ [] := by
  intro hemp
  rw [GoHeap.Pop_empty hemp] at h
  exact Except.noConfusion h

theorem GoHeap.downThenUp_length (l : List Item) (iN m : Nat) :
    (GoHeap.downThenUp l iN m).length = l.length := by
  unfold GoHeap.downThenUp
  split
  · rw [GoHeap.down_length, length_Swap]
  · rw [GoHeap.up_length, GoHeap.down_length, length_Swap]

theorem GoHeap.downThenUp_elt_last {l : List Item} {iN m : Nat} (hiN : iN < m)
    (hml : m < l.length) :
    elt (GoHeap.downThenUp l iN m) m = setIdx (elt l iN) m := by
  unfold GoHeap.downThenUp
  split
  · rw [GoHeap.down_elt_ge _ _ (le_refl m), elt_Swap_snd hml]
  · rw [GoHeap.up_elt_ge _ hiN, GoHeap.down_elt_ge _ _ (le_refl m), elt_Swap_snd hml]

theorem GoHeap.downThenUp_idxInv {l : List Item} {iN m : Nat} (hiN : iN < m)
    (hml : m < l.length) (h : idxInv l) : idxInv (GoHeap.downThenUp l iN m) := by
  have h1 : idxInv (GoHeap.down (Swap l iN m) iN m).1 :=
    GoHeap.down_idxInv iN (by rw [length_Swap]; omega)
      (idxInv_Swap h (by omega) hml)
  unfold GoHeap.downThenUp
  split
  · exact h1
  · exact GoHeap.up_idxInv (by rw [GoHeap.down_length, length_Swap]; omega) h1

theorem GoHeap.downThenUp_payload_perm {l : List Item} {iN m : Nat} (hiN : iN < m)
    (hml : m < l.length) :
    (payload (GoHeap.downThenUp l iN m)).Perm (payload l) := by
  have h1 : (payload (GoHeap.down (Swap l iN m) iN m).1).Perm (payload l) :=
    (GoHeap.down_payload_perm _ iN (by rw [length_Swap]; omega)).trans
      (payload_Swap_perm l iN m (by omega) hml)
  unfold GoHeap.downThenUp
  split
  · exact h1
  · exact (GoHeap.up_payload_perm _
      (by rw [GoHeap.down_length, length_Swap]; omega)).trans h1

theorem GoHeap.downThenUp_heapInvB {l : List Item} {iN m : Nat} (hiN : iN < m)
    (hml : m < l.length) (h : heapInv l) :
    heapInvB (GoHeap.downThenUp l iN m) m := by
  have hD : GoHeap.D0 (Swap l iN m) iN m := by
    constructor
    · intro k hk hk0 hki hpk
      rw [prio_Swap_ne hki (by omega), prio_Swap_ne hpk (by omega)]
      exact h k (by omega) hk0
    · intro hi0 c hc hpc
      have hci : c ≠ iN := by omega
      have hcm : c ≠ m := by omega
      have hpi : (iN-1)/2 ≠ iN := by omega
      have hpm : (iN-1)/2 ≠ m := by omega
      rw [prio_Swap_ne hci hcm, prio_Swap_ne hpi hpm]
      have hce := h c (by omega) (by omega)
      rw [hpc] at hce
      exact le_trans hce (h iN (by omega) hi0)
  have hs := GoHeap.down_start (by rw [length_Swap]; omega) hD
  unfold GoHeap.downThenUp
  by_cases hmoved : iN < (GoHeap.down (Swap l iN m) iN m).2
  · rw [if_pos hmoved]
    exact hs.1 hmoved
  · rw [if_neg hmoved]
    have hz : (GoHeap.down (Swap l iN m) iN m).2 = iN :=
      le_antisymm (not_lt.mp hmoved) (GoHeap.down_snd_ge _ _ _)
    obtain ⟨heq, hup⟩ := hs.2 hz
    rw [heq]
    exact GoHeap.up_heapInvB hiN (by rw [length_Swap]; omega) hup

theorem GoHeap.Remove_ok {pq : IntQueue} {i : Int} (hi0 : 0 ≤ i)
    (hilt : i < (pq.items.length : Int)) :
    ∃ t r, GoHeap.Remove pq i = .ok (t, r) ∧ t.cap = pq.cap ∧
      t.items.length = pq.items.length - 1 ∧
      r = ⟨(elt pq.items i.toNat).value, (elt pq.items i.toNat).priority, -1⟩ ∧
      (payload pq.items).Perm ((r.value, r.priority) :: payload t.items) ∧
      (idxInv pq.items → idxInv t.items) ∧
      (heapInv pq.items → heapInv t.items) := by
  obtain ⟨m, hm⟩ : ∃ m, pq.items.length = m + 1 := by
    cases hl : pq.items.length with
    | zero =>
        rw [hl] at hilt
        simp at hilt
        omega
    | succ k => exact ⟨k, rfl⟩
  rw [hm] at hilt
  push_cast at hilt
  have hml : m < pq.items.length := by omega
  have hred : GoHeap.Remove pq i
      = (if i = (m : Int) then IntQueue.Pop pq
         else if 0 ≤ i ∧ i < (m : Int) + 1 then
           IntQueue.Pop ⟨GoHeap.downThenUp pq.items i.toNat m, pq.cap⟩
         else .error .outOfRange) := by
    unfold GoHeap.Remove
    rw [hm]
  rw [hred]
  by_cases him : i = (m : Int)
  · rw [if_pos him]
    rw [IntQueue.Pop_eq hm]
    have hitm : i.toNat = m := by omega
    refine ⟨_, _, rfl, rfl, ?_, ?_, ?_, ?_, ?_⟩
    · simp [List.length_take, hm]
    · rw [hitm]
    · exact payload_perm_take_last hm
    · intro h
      exact idxInv_take m h
    · intro h
      apply heapInv_take
      intro k hk hk0
      exact h k (by omega) hk0
  · rw [if_neg him, if_pos ⟨hi0, hilt⟩]
    have hiN : i.toNat < m := by omega
    have hlen3 : (GoHeap.downThenUp pq.items i.toNat m).length = m + 1 := by
      rw [GoHeap.downThenUp_length, hm]
    rw [IntQueue.Pop_eq hlen3]
    refine ⟨_, _, rfl, rfl, ?_, ?_, ?_, ?_, ?_⟩
    · rw [List.length_take, hlen3, hm]
      omega
    · rw [GoHeap.downThenUp_elt_last hiN hml]
      rfl
    · have hp1 := GoHeap.downThenUp_payload_perm hiN hml
      have hp2 := payload_perm_take_last hlen3
      exact hp1.symm.trans hp2
    · intro h
      exact idxInv_take m (GoHeap.downThenUp_idxInv hiN hml h)
    · intro h
      exact heapInv_take (GoHeap.downThenUp_heapInvB hiN hml h)

theorem GoHeap.Remove_err {pq : IntQueue} {i : Int}
    (h : i < 0 ∨ (pq.items.length : Int) ≤ i) :
    GoHeap.Remove pq i = .error .outOfRange := by
  cases hl : pq.items.length with
  | zero =>
      unfold GoHeap.Remove
      rw [hl]
  | succ m =>
      rw [hl] at h
      push_cast at h
      have hred : GoHeap.Remove pq i
          = (if i = (m : Int) then IntQueue.Pop pq
             else if 0 ≤ i ∧ i < (m : Int) + 1 then
               IntQueue.Pop ⟨GoHeap.downThenUp pq.items i.toNat m, pq.cap⟩
             else .error .outOfRange) := by
        unfold GoHeap.Remove
        rw [hl]
      rw [hred, if_neg (by omega), if_neg (by omega)]

theorem GoHeap.Remove_ok_range {pq t : IntQueue} {i : Int} {r : Item}
    (h : GoHeap.Remove pq i = .ok (t, r)) :
    0 ≤ i ∧ i < (pq.items.length : Int) := by
  by_cases hr : 0 ≤ i ∧ i < (pq.items.length : Int)
  · exact hr
  · rw [GoHeap.Remove_err (by omega)] at h
    exact Except.noConfusion h

/-! ## Well-formed states and reachability -/

theorem WF_new (n : Nat) : WF (NewIntQueue n) := by
  refine ⟨by simp [NewIntQueue], ?_, ?_⟩
  · intro k hk
    simp [NewIntQueue] at hk
  · intro k hk hk0
    simp [NewIntQueue] at hk

theorem push_wf {pq t : IntQueue} {x : Item} (hwf : WF pq)
    (h : GoHeap.Push pq x = .ok t) : WF t := by
  obtain ⟨hc, hi, hh⟩ := hwf
  have hcap := GoHeap.Push_ok_cap h
  obtain ⟨u, hequ, hucap, hulen, _, hidx, hheap⟩ := GoHeap.Push_ok x hcap
  rw [h] at hequ
  obtain rfl : u = t := by simpa using hequ.symm
  exact ⟨by omega, hidx hi, hheap hh⟩

theorem pop_wf {pq t : IntQueue} {r : Item} (hwf : WF pq)
    (h : GoHeap.Pop pq = .ok (t, r)) : WF t := by
  obtain ⟨hc, hi, hh⟩ := hwf
  have hne := GoHeap.Pop_ok_ne h
  obtain ⟨u, s, hequ, hucap, hulen, _, _, hidx, hheap⟩ := GoHeap.Pop_ok hne
  rw [h] at hequ
  have hus : u = t ∧ s = r := by
    simpa [Prod.ext_iff] using hequ.symm
  obtain ⟨rfl, rfl⟩ := hus
  exact ⟨by omega, hidx hi, hheap hh⟩

theorem remove_wf {pq t : IntQueue} {i : Int} {r : Item} (hwf : WF pq)
    (h : GoHeap.Remove pq i = .ok (t, r)) :
    WF t ∧ t.items.length = pq.items.length - 1 ∧ t.cap = pq.cap ∧
      1 ≤ pq.items.length := by
  obtain ⟨hc, hi, hh⟩ := hwf
  have hrange := GoHeap.Remove_ok_range h
  obtain ⟨u, s, hequ, hucap, hulen, _, _, hidx, hheap⟩ :=
    GoHeap.Remove_ok hrange.1 hrange.2
  rw [h] at hequ
  have hus : u = t ∧ s = r := by
    simpa [Prod.ext_iff] using hequ.symm
  obtain ⟨rfl, rfl⟩ := hus
  have hlen1 : 1 ≤ pq.items.length := by
    have h1 := hrange.1
    have h2 := hrange.2
    omega
  exact ⟨⟨by omega, hidx hi, hheap hh⟩, hulen, hucap, hlen1⟩

theorem changePriority_wf {pq t : IntQueue} {x : Item} {p : Int} (hwf : WF pq)
    (h : IntQueue.changePriority pq x p = .ok t) :
    WF t ∧ t.items.length = pq.items.length := by
  unfold IntQueue.changePriority at h
  cases hrem : GoHeap.Remove pq x.index with
  | error e =>
      rw [hrem] at h
      exact Except.noConfusion h
  | ok sr =>
      obtain ⟨s', r⟩ := sr
      rw [hrem] at h
      have h2 : GoHeap.Push s' { x with priority := p } = .ok t := h
      obtain ⟨hwfs, hslen, hscap, hlen1⟩ := remove_wf hwf hrem
      have hwt := push_wf hwfs h2
      have hcap2 := GoHeap.Push_ok_cap h2
      obtain ⟨u, hequ, _, hulen, _, _, _⟩ := GoHeap.Push_ok { x with priority := p } hcap2
      rw [h2] at hequ
      obtain rfl : u = t := by simpa using hequ.symm
      exact ⟨hwt, by omega⟩

theorem update_wf {pq t : IntQueue} {v p : Int} (hwf : WF pq)
    (h : IntQueue.update pq v p = .ok t) :
    WF t ∧ t.items.length = pq.items.length := by
  unfold IntQueue.update at h
  cases hpop : GoHeap.Pop pq with
  | error e =>
      rw [hpop] at h
      exact Except.noConfusion h
  | ok sr =>
      obtain ⟨s', r⟩ := sr
      rw [hpop] at h
      have h2 : GoHeap.Push s' { r with value := v, priority := p } = .ok t := h
      have hne := GoHeap.Pop_ok_ne hpop
      have hwfs := pop_wf hwf hpop
      have hlen1 : 1 ≤ pq.items.length := by
        cases hl : pq.items with
        | nil => exact absurd hl hne
        | cons a l => simp [hl]
      obtain ⟨u, s, hequ, _, hslen, _, _, _, _⟩ := GoHeap.Pop_ok hne
      rw [hpop] at hequ
      have hus : u = s' ∧ s = r := by
        simpa [Prod.ext_iff] using hequ.symm
      obtain ⟨rfl, rfl⟩ := hus
      have hwt := push_wf hwfs h2
      have hcap2 := GoHeap.Push_ok_cap h2
      obtain ⟨w, heqw, _, hwlen, _, _, _⟩ :=
        GoHeap.Push_ok { s with value := v, priority := p } hcap2
      rw [h2] at heqw
      obtain rfl : w = t := by simpa using heqw.symm
      exact ⟨hwt, by omega⟩

theorem reachable_wf {pq : IntQueue} (h : Reachable pq) : WF pq := by
  induction h with
  | new n => exact WF_new n
  | push pq t x _ heq ih => exact push_wf ih heq
  | pop pq t r _ heq ih => exact pop_wf ih heq
  | change pq t x p _ heq ih => exact (changePriority_wf ih heq).1
  | upd pq t v p _ heq ih => exact (update_wf ih heq).1

/-- `heap.Push` depends only on the pushed item's `value` and `priority`:
the `index` field is overwritten by `IntQueue.Push` before storage. -/
theorem GoHeap.Push_congr {pq : IntQueue} {a b : Item} (hv : a.value = b.value)
    (hp : a.priority = b.priority) : GoHeap.Push pq a = GoHeap.Push pq b := by
  have hset : setIdx a pq.items.length = setIdx b pq.items.length := by
    unfold setIdx
    cases a
    cases b
    simp only [Item.mk.injEq] at hv hp ⊢
    simp [hv, hp]
  unfold GoHeap.Push IntQueue.Push
  rw [hset]

/-! ## Claims -/

/-- C1: `main`'s demonstration scenario.  Pushing the ten items with
priorities [77,22,44,55,11,88,33,99,0,66] and values 0..9 into
`NewIntQueue(10)` and then popping ten times yields exactly the
(priority, value) sequence (99,7),(88,5),(77,0),(66,9),(55,3),(44,2),(33,6),
(22,1),(11,4),(0,8), whose priorities are strictly decreasing. -/
theorem C1_main_scenario :
    mainRun = .ok mainExpected ∧
    ∀ i, i + 1 < mainExpected.length →
      (mainExpected.getD (i+1) (0, 0)).1 < (mainExpected.getD i (0, 0)).1 := by
  refine ⟨rfl, ?_⟩
  have key : ∀ i, i < 9 →
      (mainExpected.getD (i+1) (0, 0)).1 < (mainExpected.getD i (0, 0)).1 := by
    decide
  intro i hi
  have h9 : mainExpected.length = 10 := rfl
  rw [h9] at hi
  exact key i (by omega)

/-- C2: every state reachable from a fresh queue by successful push, pop,
changePriority and update operations satisfies the max-heap order: each
non-root occupied position is dominated by its parent `(k-1)/2`. -/
theorem C2_heap_order (pq : IntQueue) (h : Reachable pq) :
    ∀ k, k < pq.items.length → k ≠ 0 →
      prio pq.items k ≤ prio pq.items ((k-1)/2) :=
  (reachable_wf h).2.2

/-- Witness for C2 at the concrete reachable state obtained by one push into
`NewIntQueue 10`. -/
theorem C2_heap_order_witness :
    heapInv (⟨[⟨0, 77, 0⟩], 10⟩ : IntQueue).items :=
  C2_heap_order ⟨[⟨0, 77, 0⟩], 10⟩
    (Reachable.push (NewIntQueue 10) ⟨[⟨0, 77, 0⟩], 10⟩ ⟨0, 77, 0⟩
      (Reachable.new 10) rfl)

/-- C3: on every reachable state, the item stored at position `k` has
`index = k`, and consequently no two live items share an index. -/
theorem C3_index_consistency (pq : IntQueue) (h : Reachable pq) :
    (∀ k, k < pq.items.length → (elt pq.items k).index = (k : Int)) ∧
    (∀ j k, j < pq.items.length → k < pq.items.length → j ≠ k →
      (elt pq.items j).index ≠ (elt pq.items k).index) := by
  have hidx := (reachable_wf h).2.1
  refine ⟨hidx, ?_⟩
  intro j k hj hk hjk heq
  rw [hidx j hj, hidx k hk] at heq
  exact hjk (by exact_mod_cast heq)

/-- Witness for C3 at the concrete reachable state obtained by two pushes
into `NewIntQueue 2`. -/
theorem C3_index_consistency_witness :
    (elt (⟨[⟨1, 5, 0⟩, ⟨2, 3, 1⟩], 2⟩ : IntQueue).items 0).index = ((0 : Nat) : Int) ∧
    (elt (⟨[⟨1, 5, 0⟩, ⟨2, 3, 1⟩], 2⟩ : IntQueue).items 1).index = ((1 : Nat) : Int) ∧
    (elt (⟨[⟨1, 5, 0⟩, ⟨2, 3, 1⟩], 2⟩ : IntQueue).items 0).index
      ≠ (elt (⟨[⟨1, 5, 0⟩, ⟨2, 3, 1⟩], 2⟩ : IntQueue).items 1).index := by
  have h := C3_index_consistency ⟨[⟨1, 5, 0⟩, ⟨2, 3, 1⟩], 2⟩
    (Reachable.push ⟨[⟨1, 5, 0⟩], 2⟩ ⟨[⟨1, 5, 0⟩, ⟨2, 3, 1⟩], 2⟩ ⟨2, 3, 0⟩
      (Reachable.push (NewIntQueue 2) ⟨[⟨1, 5, 0⟩], 2⟩ ⟨1, 5, 0⟩
        (Reachable.new 2) rfl) rfl)
  exact ⟨h.1 0 (by decide), h.1 1 (by decide),
    h.2 0 1 (by decide) (by decide) (by decide)⟩

/-- C4 counterexample: `push` is not total.  `NewIntQueue(1)` accepts one
item; the second `heap.Push` reslices `a[0:2]` past the backing capacity 1
and panics (slice bounds out of range), instead of succeeding with length
one greater. -/
theorem C4_push_panics_at_capacity :
    (GoHeap.Push (NewIntQueue 1) ⟨0, 5, 0⟩).bind (fun s => GoHeap.Push s ⟨1, 7, 0⟩)
      = .error .outOfRange := by
  rfl

/-- C4 amended: `heap.Push` succeeds, growing the length by exactly one,
precisely when the current length is below the construction capacity; once
the length has reached the capacity it fails with the Go slice-bounds
panic. -/
theorem C4_push_length (pq : IntQueue) (x : Item) :
    (pq.items.length < pq.cap →
      ∃ t, GoHeap.Push pq x = .ok t ∧ t.items.length = pq.items.length + 1) ∧
    (pq.cap ≤ pq.items.length → GoHeap.Push pq x = .error .outOfRange) := by
  constructor
  · intro hcap
    obtain ⟨t, heq, _, hlen, _, _, _⟩ := GoHeap.Push_ok x hcap
    exact ⟨t, heq, hlen⟩
  · intro hcap
    exact GoHeap.Push_err x hcap

/-- Witness for the amended C4, exercising both the success branch (capacity
3, length 0) and the failure branch (capacity 1, length 1). -/
theorem C4_push_length_witness :
    (∃ t, GoHeap.Push (NewIntQueue 3) ⟨4, 9, 0⟩ = .ok t ∧ t.items.length = 0 + 1) ∧
    GoHeap.Push ⟨[⟨0, 5, 0⟩], 1⟩ ⟨1, 7, 0⟩ = .error .outOfRange :=
  ⟨(C4_push_length (NewIntQueue 3) ⟨4, 9, 0⟩).1 (by decide),
   (C4_push_length ⟨[⟨0, 5, 0⟩], 1⟩ ⟨1, 7, 0⟩).2 (by decide)⟩

/-- C5: on any non-empty heap-ordered queue, `heap.Pop` succeeds, returning
the item that held the maximum priority (the root), the length shrinks by
exactly one, and the returned item's `index` is the detached sentinel `-1`,
which is not a valid position of the resulting heap. -/
theorem C5_pop_max (pq : IntQueue) (hinv : heapInv pq.items) (hne : pq.items ≠ []) :
    ∃ t r, GoHeap.Pop pq = .ok (t, r) ∧
      t.items.length = pq.items.length - 1 ∧
      r.value = (elt pq.items 0).value ∧ r.priority = prio pq.items 0 ∧
      (∀ x, x ∈ pq.items → x.priority ≤ r.priority) ∧
      r.index = -1 ∧ ¬(0 ≤ r.index ∧ r.index < (t.items.length : Int)) := by
  obtain ⟨t, r, heq, _, hlen, hr, _, _, _⟩ := GoHeap.Pop_ok hne
  have hrp : r.priority = prio pq.items 0 := by rw [hr]; rfl
  have hri : r.index = -1 := by rw [hr]
  have hrv : r.value = (elt pq.items 0).value := by rw [hr]
  refine ⟨t, r, heq, hlen, hrv, hrp, ?_, hri, ?_⟩
  · intro x hx
    rw [hrp]
    obtain ⟨k, hk, hkx⟩ := List.getElem_of_mem hx
    have hle := GoHeap.heapInvB_le_root hinv k hk
    rw [← elt_eq_getElem pq.items k hk] at hkx
    rw [← hkx]
    exact hle
  · intro hcon
    rw [hri] at hcon
    omega

/-- Witness for C5 on the concrete two-element heap [(1,9),(2,4)]. -/
theorem C5_pop_max_witness :
    ∃ t r, GoHeap.Pop ⟨[⟨1, 9, 0⟩, ⟨2, 4, 1⟩], 3⟩ = .ok (t, r) ∧
      t.items.length = 2 - 1 ∧
      r.value = (elt [⟨1, 9, 0⟩, ⟨2, 4, 1⟩] 0).value ∧
      r.priority = prio [⟨1, 9, 0⟩, ⟨2, 4, 1⟩] 0 ∧
      (∀ x, x ∈ [(⟨1, 9, 0⟩ : Item), ⟨2, 4, 1⟩] → x.priority ≤ r.priority) ∧
      r.index = -1 ∧ ¬(0 ≤ r.index ∧ r.index < (t.items.length : Int)) :=
  C5_pop_max ⟨[⟨1, 9, 0⟩, ⟨2, 4, 1⟩], 3⟩ (by decide) (by decide)

/-- C6 counterexample: popping the empty queue `NewIntQueue 10` fails with
the runtime index-out-of-range panic, which is not the EmptyCollection error
the claim names (the source defines no error values at all, and has no
`peek`). -/
theorem C6_pop_empty_not_emptyCollection :
    GoHeap.Pop (NewIntQueue 10) = .error .outOfRange ∧
    HeapError.outOfRange ≠ HeapError.emptyCollection :=
  ⟨rfl, by decide⟩

/-- C6 amended: on an empty queue (fresh or drained) `heap.Pop` fails — with
the Go index-out-of-range panic, there being no EmptyCollection error in the
source — and never silently returns a sentinel item; the spec-modelled
`peek` fails with EmptyCollection. -/
theorem C6_empty_fails (pq : IntQueue) (h : pq.items = []) :
    GoHeap.Pop pq = .error .outOfRange ∧ peek pq = .error .emptyCollection := by
  constructor
  · exact GoHeap.Pop_empty h
  · unfold peek
    rw [h]

/-- Witness for the amended C6 on a drained queue of capacity 7. -/
theorem C6_empty_fails_witness :
    GoHeap.Pop ⟨[], 7⟩ = .error .outOfRange ∧
    peek ⟨[], 7⟩ = .error .emptyCollection :=
  C6_empty_fails ⟨[], 7⟩ rfl

/-- C7 (spec-modelled peek): on a non-empty heap-ordered queue, `peek`
returns the root, which carries the maximum priority; being a pure function
of the state it mutates nothing. -/
theorem C7_peek_max (pq : IntQueue) (hinv : heapInv pq.items) (hne : pq.items ≠ []) :
    ∃ r, peek pq = .ok r ∧ r = elt pq.items 0 ∧
      ∀ x, x ∈ pq.items → x.priority ≤ r.priority := by
  obtain ⟨a, l, hl⟩ : ∃ a l, pq.items = a :: l := by
    cases hx : pq.items with
    | nil => exact absurd hx hne
    | cons a l => exact ⟨a, l, rfl⟩
  have hpeek : peek pq = .ok a := by
    unfold peek
    rw [hl]
  have h0 : elt pq.items 0 = a := by rw [hl]; rfl
  refine ⟨a, hpeek, h0.symm, ?_⟩
  intro x hx
  obtain ⟨k, hk, hkx⟩ := List.getElem_of_mem hx
  have hle : (elt pq.items k).priority ≤ (elt pq.items 0).priority :=
    GoHeap.heapInvB_le_root hinv k hk
  rw [← elt_eq_getElem pq.items k hk] at hkx
  rw [hkx, h0] at hle
  exact hle

/-- Witness for C7 on the concrete one-element heap [(3,8)]. -/
theorem C7_peek_max_witness :
    ∃ r, peek ⟨[⟨3, 8, 0⟩], 5⟩ = .ok r ∧ r = elt [⟨3, 8, 0⟩] 0 ∧
      ∀ x, x ∈ [(⟨3, 8, 0⟩ : Item)] → x.priority ≤ r.priority :=
  C7_peek_max ⟨[⟨3, 8, 0⟩], 5⟩ (by decide) (by decide)

/-- C8 counterexample: the queue holds the single item (10, 5) at position 0;
the handle passed to changePriority is a different item (99, 1) whose stored
index 0 happens to be in range.  No InvalidHandle error is raised: the call
succeeds and silently replaces the occupant. -/
theorem C8_no_validation_cx :
    IntQueue.changePriority ⟨[⟨10, 5, 0⟩], 2⟩ ⟨99, 1, 0⟩ 3 = .ok ⟨[⟨99, 3, 0⟩], 2⟩ ∧
    elt [⟨10, 5, 0⟩] 0 ≠ (⟨99, 1, 0⟩ : Item) :=
  ⟨rfl, by decide⟩

/-- C8 amended: `changePriority` performs no handle validation.  With a
stored index outside [0, length) it fails with the runtime out-of-range
panic (there is no InvalidHandle error); with any in-range stored index it
succeeds and mutates the heap (removing the occupant of that position and
pushing the given item), whether or not the given item is that occupant. -/
theorem C8_no_validation (pq : IntQueue) (x : Item) (p : Int) :
    (x.index < 0 ∨ (pq.items.length : Int) ≤ x.index →
      IntQueue.changePriority pq x p = .error .outOfRange) ∧
    (0 ≤ x.index → x.index < (pq.items.length : Int) → pq.items.length ≤ pq.cap →
      ∃ t, IntQueue.changePriority pq x p = .ok t ∧
        t.items.length = pq.items.length) := by
  constructor
  · intro h
    unfold IntQueue.changePriority
    rw [GoHeap.Remove_err h]
  · intro h0 hlt hcap
    obtain ⟨s', r, heq, hscap, hslen, _, _, _, _⟩ := GoHeap.Remove_ok h0 hlt
    unfold IntQueue.changePriority
    rw [heq]
    have hlen1 : 1 ≤ pq.items.length := by omega
    obtain ⟨t, heqt, _, htlen, _, _, _⟩ :=
      @GoHeap.Push_ok s' { x with priority := p } (by omega)
    exact ⟨t, heqt, by omega⟩

/-- Witness for the amended C8: a detached handle (index -1) panics, and a
foreign in-range handle succeeds. -/
theorem C8_no_validation_witness :
    IntQueue.changePriority ⟨[⟨4, 4, 0⟩], 1⟩ ⟨7, 7, -1⟩ 2 = .error .outOfRange ∧
    (∃ t, IntQueue.changePriority ⟨[⟨4, 4, 0⟩], 1⟩ ⟨7, 7, 0⟩ 2 = .ok t ∧
      t.items.length = 1) :=
  ⟨(C8_no_validation ⟨[⟨4, 4, 0⟩], 1⟩ ⟨7, 7, -1⟩ 2).1 (by decide),
   (C8_no_validation ⟨[⟨4, 4, 0⟩], 1⟩ ⟨7, 7, 0⟩ 2).2 (by decide) (by decide) (by decide)⟩

/-- C9 counterexample: for the attached item (10, 5) and newValue 42,
`changePriority` (which takes no newValue and never writes `value`) yields
the queue [(10, 3)], while the spec's removeAt-mutate-push decomposition
yields [(42, 3)]: the claimed equivalence fails whenever newValue differs
from the item's current value. -/
theorem C9_value_not_updated :
    IntQueue.changePriority ⟨[⟨10, 5, 0⟩], 1⟩ ⟨10, 5, 0⟩ 3
      ≠ removeSetPush ⟨[⟨10, 5, 0⟩], 1⟩ ⟨10, 5, 0⟩ 42 3 := by
  intro h
  have h1 : (Except.ok (⟨[⟨10, 3, 0⟩], 1⟩ : IntQueue) : Except HeapError IntQueue)
      = .ok (⟨[⟨42, 3, 0⟩], 1⟩ : IntQueue) := h
  exact absurd (Except.ok.inj h1) (by decide)

/-- C9 amended: with newValue fixed to the item's current value (the only
value `changePriority` can produce, since it never writes `value`),
`changePriority(item, p)` coincides with the spec's decomposition: remove at
the item's stored index, set the removed item's value/priority, push it
back. -/
theorem C9_changePriority_equiv (pq : IntQueue) (x : Item) (p : Int) :
    IntQueue.changePriority pq x p = removeSetPush pq x x.value p := by
  unfold IntQueue.changePriority removeSetPush
  cases hrem : GoHeap.Remove pq x.index with
  | error e => rfl
  | ok sr =>
      obtain ⟨s', r⟩ := sr
      show GoHeap.Push s' { x with priority := p }
        = GoHeap.Push s' { r with value := x.value, priority := p }
      exact GoHeap.Push_congr rfl rfl

/-- C10: `update(v, p)` takes no handle and always rewrites the root — the
maximum-priority item: it fails exactly on the empty queue (the `heap.Pop`
panic), otherwise succeeds with unchanged length, and the new content is the
old content with the root's payload replaced by (v, p). -/
theorem C10_update_rewrites_root (pq : IntQueue) (v p : Int)
    (hcap : pq.items.length ≤ pq.cap) (hinv : heapInv pq.items) :
    (pq.items = [] → IntQueue.update pq v p = .error .outOfRange) ∧
    (pq.items ≠ [] → ∃ t, IntQueue.update pq v p = .ok t ∧
      t.items.length = pq.items.length ∧
      (∀ x, x ∈ pq.items → x.priority ≤ prio pq.items 0) ∧
      ∃ L, (payload pq.items).Perm
          (((elt pq.items 0).value, prio pq.items 0) :: L) ∧
        (payload t.items).Perm ((v, p) :: L)) := by
  constructor
  · intro h
    unfold IntQueue.update
    rw [GoHeap.Pop_empty h]
  · intro hne
    obtain ⟨s', r, heq, hscap, hslen, hr, hperm, _, _⟩ := GoHeap.Pop_ok hne
    unfold IntQueue.update
    rw [heq]
    have hlen1 : 1 ≤ pq.items.length := by
      cases hl : pq.items with
      | nil => exact absurd hl hne
      | cons a l => simp [hl]
    obtain ⟨t, heqt, _, htlen, htperm, _, _⟩ :=
      @GoHeap.Push_ok s' { r with value := v, priority := p } (by omega)
    refine ⟨t, heqt, by omega, ?_, payload s'.items, ?_, ?_⟩
    · intro x hx
      obtain ⟨k, hk, hkx⟩ := List.getElem_of_mem hx
      have hle := GoHeap.heapInvB_le_root hinv k hk
      rw [← elt_eq_getElem pq.items k hk] at hkx
      rw [← hkx]
      exact hle
    · have hpair : (r.value, r.priority)
          = ((elt pq.items 0).value, prio pq.items 0) := by
        rw [hr]
        rfl
      rw [← hpair]
      exact hperm
    · exact htperm

/-- Witness for C10 on the concrete one-element heap [(3, 7)], updating to
value 5, priority 2. -/
theorem C10_update_rewrites_root_witness :
    ∃ t, IntQueue.update ⟨[⟨3, 7, 0⟩], 1⟩ 5 2 = .ok t ∧
      t.items.length = 1 ∧
      (∀ x, x ∈ [(⟨3, 7, 0⟩ : Item)] → x.priority ≤ prio [⟨3, 7, 0⟩] 0) ∧
      ∃ L, (payload [⟨3, 7, 0⟩]).Perm
          (((elt [⟨3, 7, 0⟩] 0).value, prio [⟨3, 7, 0⟩] 0) :: L) ∧
        (payload t.items).Perm ((5, 2) :: L) :=
  (C10_update_rewrites_root ⟨[⟨3, 7, 0⟩], 1⟩ 5 2 (by decide) (by decide)).2
    (by decide)
